import Mathlib

/-!
# Verification of the b3scale request-router / state-replication core

This file gives a shallow embedding of the parts of the b3scale sources
relevant to the frozen claims, and proves or refutes each claim.

Sections:
* `B3.Bbb` — the signing primitive (`Params`, `Sign`) and `Meeting.Update`
  (from `pkg/bbb`).
* `B3.Store` — settings merge, meeting-list sync and the command queue
  (from `pkg/store`).
* `B3.Noded` — the backend event handlers (from `cmd/b3scalenoded`).
* `B3.Cluster` — `Backend.Create` (from `pkg/cluster`).
-/

namespace B3

/-! ## Byte-level helpers: UTF-8 encoding and hex digests -/

/-- UTF-8 encoding of a single unicode code point, as a list of byte values.
Standard 1–4 byte encoding. -/
def utf8Encode (c : Char) : List Nat :=
  let n := c.toNat
  if n < 0x80 then [n]
  else if n < 0x800 then
    [0xC0 ||| (n >>> 6), 0x80 ||| (n &&& 0x3F)]
  else if n < 0x10000 then
    [0xE0 ||| (n >>> 12), 0x80 ||| ((n >>> 6) &&& 0x3F), 0x80 ||| (n &&& 0x3F)]
  else
    [0xF0 ||| (n >>> 18), 0x80 ||| ((n >>> 12) &&& 0x3F),
     0x80 ||| ((n >>> 6) &&& 0x3F), 0x80 ||| (n &&& 0x3F)]

/-- UTF-8 bytes of a string. -/
def strBytes (s : String) : List Nat :=
  s.data.flatMap utf8Encode

/-- Lowercase hex digit for a value `0 ≤ n < 16`. -/
def hexDigit (n : Nat) : Char :=
  if n < 10 then Char.ofNat (48 + n) else Char.ofNat (87 + n)

/-- Uppercase hex digit for a value `0 ≤ n < 16` (used by URL percent-escapes). -/
def hexDigitUpper (n : Nat) : Char :=
  if n < 10 then Char.ofNat (48 + n) else Char.ofNat (55 + n)

/-- Render a 32-bit word as 8 lowercase hex characters, most significant first. -/
def wordToHex (w : Nat) : List Char :=
  (List.range 8).map (fun i => hexDigit ((w >>> (4 * (7 - i))) % 16))

/-- Big-endian byte representation of `x` in `n` bytes. -/
def beBytes (n x : Nat) : List Nat :=
  (List.range n).map (fun i => (x >>> (8 * (n - 1 - i))) % 256)

/-! ## URL query escaping (Go `net/url.QueryEscape`)

`QueryEscape` keeps ASCII alphanumerics and `-_.~`, turns a space into `+`,
and percent-escapes every other byte with uppercase hex. -/

/-- Is the byte left unescaped by Go's `url.QueryEscape`? -/
def isUnreservedByte (b : Nat) : Bool :=
  (48 ≤ b && b ≤ 57) || (65 ≤ b && b ≤ 90) || (97 ≤ b && b ≤ 122) ||
  b == 45 || b == 95 || b == 46 || b == 126

/-- Escape one byte the way `url.QueryEscape` does. -/
def escapeByte (b : Nat) : List Char :=
  if b == 32 then ['+']
  else if isUnreservedByte b then [Char.ofNat b]
  else ['%', hexDigitUpper (b / 16), hexDigitUpper (b % 16)]

/-- Go `url.QueryEscape`: UTF-8 encode, then escape byte-wise. -/
def queryEscape (s : String) : String :=
  String.mk ((strBytes s).flatMap escapeByte)

/-! ## SHA-256 (FIPS 180-4), over a list of byte values -/

/-- 32-bit rotate right. -/
def rotr32 (n x : Nat) : Nat :=
  ((x >>> n) ||| (x <<< (32 - n))) % 4294967296

/-- 32-bit rotate left. -/
def rotl32 (n x : Nat) : Nat :=
  ((x <<< n) ||| (x >>> (32 - n))) % 4294967296

/-- SHA paddding: append `0x80`, zeros and the 64-bit big-endian bit length,
so that the total length is a multiple of 64 bytes.  Shared by SHA-1 and
SHA-256. -/
def shaPad (msg : List Nat) : List Nat :=
  let L := msg.length
  let padLen := (119 - (L % 64)) % 64
  msg ++ [0x80] ++ List.replicate padLen 0 ++ beBytes 8 (L * 8)

/-- Group a byte list into big-endian 32-bit words. -/
def bytesToWords : List Nat → List Nat
  | a :: b :: c :: d :: rest => (((a * 256 + b) * 256 + c) * 256 + d) :: bytesToWords rest
  | _ => []

/-- Split a word list into blocks of 16 words (structural recursion on a
fuel argument so that the kernel can evaluate it). -/
def chunk16Go : Nat → List Nat → List (List Nat)
  | 0, _ => []
  | _, [] => []
  | n + 1, x :: xs => (x :: xs.take 15) :: chunk16Go n (xs.drop 15)

/-- Split a word list into blocks of 16 words. -/
def chunk16 (l : List Nat) : List (List Nat) :=
  chunk16Go l.length l

/-- Iterate a function `n` times. -/
def iterate (f : α → α) : Nat → α → α
  | 0, a => a
  | n + 1, a => iterate f n (f a)

/-- The eight-word working state of the SHA-256 compression function. -/
structure V8 where
  a : Nat
  b : Nat
  c : Nat
  d : Nat
  e : Nat
  f : Nat
  g : Nat
  h : Nat
deriving DecidableEq

/-- SHA-256 round constants. -/
def sha256K : List Nat :=
  [1116352408, 1899447441, 3049323471, 3921009573,
   961987163, 1508970993, 2453635748, 2870763221,
   3624381080, 310598401, 607225278, 1426881987,
   1925078388, 2162078206, 2614888103, 3248222580,
   3835390401, 4022224774, 264347078, 604807628,
   770255983, 1249150122, 1555081692, 1996064986,
   2554220882, 2821834349, 2952996808, 3210313671,
   3336571891, 3584528711, 113926993, 338241895,
   666307205, 773529912, 1294757372, 1396182291,
   1695183700, 1986661051, 2177026350, 2456956037,
   2730485921, 2820302411, 3259730800, 3345764771,
   3516065817, 3600352804, 4094571909, 275423344,
   430227734, 506948616, 659060556, 883997877,
   958139571, 1322822218, 1537002063, 1747873779,
   1955562222, 2024104815, 2227730452, 2361852424,
   2428436474, 2756734187, 3204031479, 3329325298]

/-- Extend the (reversed) SHA-256 message schedule by one word. -/
def sha256WStep (w : List Nat) : List Nat :=
  let s0 :=
    (rotr32 7 (w.getD 14 0)) ^^^ (rotr32 18 (w.getD 14 0)) ^^^ ((w.getD 14 0) >>> 3)
  let s1 :=
    (rotr32 17 (w.getD 1 0)) ^^^ (rotr32 19 (w.getD 1 0)) ^^^ ((w.getD 1 0) >>> 10)
  (((w.getD 15 0) + s0 + (w.getD 6 0) + s1) % 4294967296) :: w

/-- Full 64-word SHA-256 message schedule of one block. -/
def sha256Schedule (block : List Nat) : List Nat :=
  (iterate sha256WStep 48 block.reverse).reverse

/-- One SHA-256 round. -/
def sha256Round (v : V8) (wk : Nat × Nat) : V8 :=
  let S1 := (rotr32 6 v.e) ^^^ (rotr32 11 v.e) ^^^ (rotr32 25 v.e)
  let ch := (v.e &&& v.f) ^^^ ((v.e ^^^ 0xFFFFFFFF) &&& v.g)
  let t1 := (v.h + S1 + ch + wk.2 + wk.1) % 4294967296
  let S0 := (rotr32 2 v.a) ^^^ (rotr32 13 v.a) ^^^ (rotr32 22 v.a)
  let mj := (v.a &&& v.b) ^^^ (v.a &&& v.c) ^^^ (v.b &&& v.c)
  let t2 := (S0 + mj) % 4294967296
  ⟨(t1 + t2) % 4294967296, v.a, v.b, v.c, (v.d + t1) % 4294967296, v.e, v.f, v.g⟩

/-- SHA-256 compression of one block into the running hash. -/
def sha256Block (h : V8) (block : List Nat) : V8 :=
  let ws := sha256Schedule block
  let v := (ws.zip sha256K).foldl sha256Round h
  ⟨(h.a + v.a) % 4294967296, (h.b + v.b) % 4294967296,
   (h.c + v.c) % 4294967296, (h.d + v.d) % 4294967296,
   (h.e + v.e) % 4294967296, (h.f + v.f) % 4294967296,
   (h.g + v.g) % 4294967296, (h.h + v.h) % 4294967296⟩

/-- SHA-256 initial hash value. -/
def sha256H0 : V8 :=
  ⟨1779033703, 3144134277, 1013904242, 2773480762,
   1359893119, 2600822924, 528734635, 1541459225⟩

/-- Hex encoding of the SHA-256 digest of a byte list. -/
def sha256Hex (msg : List Nat) : String :=
  let blocks := chunk16 (bytesToWords (shaPad msg))
  let h := blocks.foldl sha256Block sha256H0
  String.mk (wordToHex h.a ++ wordToHex h.b ++ wordToHex h.c ++ wordToHex h.d ++
             wordToHex h.e ++ wordToHex h.f ++ wordToHex h.g ++ wordToHex h.h)

/-! ## SHA-1 (FIPS 180-4), over a list of byte values -/

/-- The five-word working state of SHA-1. -/
structure V5 where
  a : Nat
  b : Nat
  c : Nat
  d : Nat
  e : Nat
deriving DecidableEq

/-- Extend the (reversed) SHA-1 message schedule by one word. -/
def sha1WStep (w : List Nat) : List Nat :=
  (rotl32 1 ((w.getD 2 0) ^^^ (w.getD 7 0) ^^^ (w.getD 13 0) ^^^ (w.getD 15 0))) :: w

/-- Full 80-word SHA-1 message schedule of one block. -/
def sha1Schedule (block : List Nat) : List Nat :=
  (iterate sha1WStep 64 block.reverse).reverse

/-- One SHA-1 round; `i` is the round index. -/
def sha1Round (v : V5) (iw : Nat × Nat) : V5 :=
  let i := iw.1
  let w := iw.2
  let f :=
    if i < 20 then (v.b &&& v.c) ||| ((v.b ^^^ 0xFFFFFFFF) &&& v.d)
    else if i < 40 then v.b ^^^ v.c ^^^ v.d
    else if i < 60 then (v.b &&& v.c) ||| (v.b &&& v.d) ||| (v.c &&& v.d)
    else v.b ^^^ v.c ^^^ v.d
  let k :=
    if i < 20 then 1518500249
    else if i < 40 then 1859775393
    else if i < 60 then 2400959708
    else 3395469782
  ⟨((rotl32 5 v.a) + f + v.e + k + w) % 4294967296,
   v.a, rotl32 30 v.b, v.c, v.d⟩

/-- SHA-1 compression of one block into the running hash. -/
def sha1Block (h : V5) (block : List Nat) : V5 :=
  let ws := sha1Schedule block
  let v := ((List.range 80).zip ws).foldl sha1Round h
  ⟨(h.a + v.a) % 4294967296, (h.b + v.b) % 4294967296,
   (h.c + v.c) % 4294967296, (h.d + v.d) % 4294967296,
   (h.e + v.e) % 4294967296⟩

/-- SHA-1 initial hash value. -/
def sha1H0 : V5 :=
  ⟨1732584193, 4023233417, 2562383102, 271733878, 3285377520⟩

/-- Hex encoding of the SHA-1 digest of a byte list. -/
def sha1Hex (msg : List Nat) : String :=
  let blocks := chunk16 (bytesToWords (shaPad msg))
  let h := blocks.foldl sha1Block sha1H0
  String.mk (wordToHex h.a ++ wordToHex h.b ++ wordToHex h.c ++
             wordToHex h.d ++ wordToHex h.e)

/-! ## The signing primitive (`pkg/bbb`)

The implementation file `pkg/bbb/request.go` is not part of the provided
sources; only its tests (`pkg/bbb/request_test.go`) are.  `Params.String`
and `Request.Sign` are therefore modelled from the specification and pinned
against the concrete vectors of `TestParamsString`, `TestSign` and
`TestString`. -/

/-- A BBB parameter map (Go `Params = map[string]string`), embedded as an
association list; map-ness is expressed by a `Nodup` hypothesis on the keys
where it matters. -/
abbrev Params : Type := List (String × String)

/-- Association-list lookup, mirroring Go's `p[k]` map access. -/
def findVal : List (String × String) → String → Option String
  | [], _ => none
  | (k, v) :: rest, key => if k = key then some v else findVal rest key

/-! Lexicographic string order (the order of Go's `sort.Strings`), defined
executably so that concrete instances evaluate in the kernel. -/

/-- Lexicographic comparison of char lists by code point. -/
def charListLe : List Char → List Char → Bool
  | [], _ => true
  | _ :: _, [] => false
  | a :: as, b :: bs =>
    if a.toNat < b.toNat then true
    else if b.toNat < a.toNat then false
    else charListLe as bs

/-- Characters with equal code points are equal. -/
theorem char_toNat_inj {a b : Char} (h : a.toNat = b.toNat) : a = b :=
  Char.ext (UInt32.ext h)

theorem charListLe_total (a b : List Char) :
    charListLe a b = true ∨ charListLe b a = true := by
  induction a generalizing b with
  | nil => exact Or.inl rfl
  | cons x xs ih =>
    cases b with
    | nil => exact Or.inr rfl
    | cons y ys =>
      by_cases hxy : x.toNat < y.toNat
      · left
        simp [charListLe, hxy]
      · by_cases hyx : y.toNat < x.toNat
        · right
          simp [charListLe, hyx]
        · rcases ih ys with h | h
          · left
            simp [charListLe, hxy, hyx, h]
          · right
            simp [charListLe, hxy, hyx, h]

theorem charListLe_antisymm {a b : List Char}
    (hab : charListLe a b = true) (hba : charListLe b a = true) : a = b := by
  induction a generalizing b with
  | nil =>
    cases b with
    | nil => rfl
    | cons y ys => simp [charListLe] at hba
  | cons x xs ih =>
    cases b with
    | nil => simp [charListLe] at hab
    | cons y ys =>
      by_cases hxy : x.toNat < y.toNat
      · have : ¬ y.toNat < x.toNat := by omega
        simp [charListLe, hxy, this] at hba
      · by_cases hyx : y.toNat < x.toNat
        · simp [charListLe, hxy, hyx] at hab
        · have hx : x = y := char_toNat_inj (by omega)
          subst hx
          simp [charListLe, hxy, hyx] at hab hba
          rw [ih hab hba]

theorem charListLe_trans {a b c : List Char}
    (hab : charListLe a b = true) (hbc : charListLe b c = true) :
    charListLe a c = true := by
  induction a generalizing b c with
  | nil => rfl
  | cons x xs ih =>
    cases b with
    | nil => simp [charListLe] at hab
    | cons y ys =>
      cases c with
      | nil => simp [charListLe] at hbc
      | cons z zs =>
        by_cases hxy : x.toNat < y.toNat <;> by_cases hyz : y.toNat < z.toNat
        · simp [charListLe]
          omega
        · by_cases hzy : z.toNat < y.toNat
          · simp [charListLe, hyz, hzy] at hbc
          · have hy : y = z := char_toNat_inj (by omega)
            subst hy
            simp [charListLe]
            omega
        · by_cases hyx : y.toNat < x.toNat
          · simp [charListLe, hxy, hyx] at hab
          · have hx : x = y := char_toNat_inj (by omega)
            subst hx
            simp [charListLe]
            omega
        · by_cases hyx : y.toNat < x.toNat
          · simp [charListLe, hxy, hyx] at hab
          · have hx : x = y := char_toNat_inj (by omega)
            subst hx
            by_cases hzy : z.toNat < x.toNat
            · simp [charListLe, hyz, hzy] at hbc
            · have hy : x = z := char_toNat_inj (by omega)
              subst hy
              simp [charListLe, hxy] at hab hbc ⊢
              exact ih hab hbc

/-- Lexicographic order on strings (as `sort.Strings` orders them). -/
def strLe (a b : String) : Prop := charListLe a.data b.data = true

instance : DecidableRel strLe := fun a b => by
  unfold strLe
  infer_instance

instance : IsTotal String strLe :=
  ⟨fun a b => charListLe_total a.data b.data⟩

instance : IsTrans String strLe :=
  ⟨fun _ _ _ hab hbc => charListLe_trans hab hbc⟩

instance : IsAntisymm String strLe :=
  ⟨fun a b hab hba => by
    cases a
    cases b
    exact congrArg String.mk (charListLe_antisymm hab hba)⟩

/-- Key order used for canonicalisation of parameter pairs. -/
def keyLE (a b : String × String) : Prop := strLe a.1 b.1

instance : DecidableRel keyLE := fun a b => by
  unfold keyLE
  infer_instance

instance : IsTotal (String × String) keyLE :=
  ⟨fun a b => charListLe_total a.1.data b.1.data⟩

instance : IsTrans (String × String) keyLE :=
  ⟨fun _ _ _ hab hbc => charListLe_trans hab hbc⟩

/-- Modelled from the spec: missing `Params.String` of `pkg/bbb/request.go`.
“`canonical(P)` is the URL-encoded `key=value&…` string with keys sorted
lexicographically ascending … Excludes any existing `checksum` entry …
values are URL-encoded with space → `+` … empty P yields the empty string.”
Shaped like the Go method: collect the keys (skipping `checksum`), sort
them, and look each value up in the map. -/
def paramsString (p : Params) : String :=
  String.intercalate "&"
    ((((p.map Prod.fst).filter (fun k => k ≠ "checksum")).insertionSort strLe).map
      (fun k => k ++ "=" ++ queryEscape ((findVal p k).getD "")))

/-- The canonical parameter string as the spec words it: the `checksum`
pair removed, the remaining pairs sorted by key, each rendered as
`key=value` with the value URL-encoded, joined by `&`. -/
def canonicalParams (p : Params) : String :=
  String.intercalate "&"
    (((p.filter (fun q => q.1 ≠ "checksum")).insertionSort keyLE).map
      (fun q => q.1 ++ "=" ++ queryEscape q.2))

/-- Modelled from the spec: missing `Request.Sign` of `pkg/bbb/request.go`.
The checksum is the hex digest over `resource || Params.String() || secret`;
the digest function is pinned by the in-repo test vectors of `TestSign` /
`TestString` (64 hex characters, SHA-256). -/
def Sign (resource : String) (p : Params) (secret : String) : String :=
  sha256Hex (strBytes (resource ++ paramsString p ++ secret))

/-! ### Canonicalisation lemmas -/

/-- Strict key order on parameter pairs: weak order plus distinct keys. -/
def keyLT (a b : String × String) : Prop := strLe a.1 b.1 ∧ a.1 ≠ b.1

instance : IsAntisymm (String × String) keyLT :=
  ⟨fun _ _ hab hba => absurd (antisymm hab.1 hba.1) hab.2⟩

/-- A key-sorted pair list with pairwise-distinct keys is strictly
key-sorted. -/
theorem sorted_keyLT_of_keyLE {l : List (String × String)}
    (hle : l.Pairwise keyLE) (hne : l.Pairwise (fun a b => a.1 ≠ b.1)) :
    l.Pairwise keyLT := by
  induction l with
  | nil => exact List.Pairwise.nil
  | cons a rest ih =>
    rcases List.pairwise_cons.mp hle with ⟨hale, hrle⟩
    rcases List.pairwise_cons.mp hne with ⟨hane, hrne⟩
    exact List.pairwise_cons.mpr
      ⟨fun b hb => ⟨hale b hb, hane b hb⟩, ih hrle hrne⟩

theorem map_fst_filter_checksum (p : Params) :
    (p.filter (fun q => q.1 ≠ "checksum")).map Prod.fst
      = (p.map Prod.fst).filter (fun k => k ≠ "checksum") := by
  induction p with
  | nil => rfl
  | cons q rest ih =>
    by_cases h : q.1 = "checksum"
    · simpa [List.filter_cons, h] using ih
    · simpa [List.filter_cons, h] using ih

theorem findVal_eq_some_of_mem {p : Params} {k v : String}
    (hnd : (p.map Prod.fst).Nodup) (hmem : (k, v) ∈ p) :
    findVal p k = some v := by
  induction p with
  | nil => cases hmem
  | cons q rest ih =>
    simp only [List.map_cons, List.nodup_cons] at hnd
    rcases List.mem_cons.mp hmem with hq | hrest
    · subst hq
      simp [findVal]
    · have hne : q.1 ≠ k := by
        intro hk
        exact hnd.1 (hk ▸ (List.mem_map.mpr ⟨(k, v), hrest, rfl⟩))
      simp [findVal, hne, ih hnd.2 hrest]

/-- The key list of the spec-side sorted pair list coincides with the
code-side sorted key list. -/
theorem sorted_keys_eq (p : Params) :
    ((p.map Prod.fst).filter (fun k => k ≠ "checksum")).insertionSort strLe
      = ((p.filter (fun q => q.1 ≠ "checksum")).insertionSort keyLE).map Prod.fst := by
  apply List.eq_of_perm_of_sorted (r := strLe)
  · have h1 := List.perm_insertionSort strLe
      ((p.map Prod.fst).filter (fun k => k ≠ "checksum"))
    have h2 := ((List.perm_insertionSort keyLE
      (p.filter (fun q => q.1 ≠ "checksum"))).map Prod.fst).symm
    rw [map_fst_filter_checksum] at h2
    exact h1.trans h2
  · exact List.sorted_insertionSort _ _
  · have hs := List.sorted_insertionSort keyLE (p.filter (fun q => q.1 ≠ "checksum"))
    exact (List.pairwise_map).mpr (hs.imp (fun h => h))

/-- With unique keys, the code-shaped `Params.String` agrees with the
spec-worded canonical parameter string. -/
theorem paramsString_eq_canonical {p : Params}
    (hnd : (p.map Prod.fst).Nodup) :
    paramsString p = canonicalParams p := by
  unfold paramsString canonicalParams
  rw [sorted_keys_eq p, List.map_map]
  congr 1
  apply List.map_congr_left
  intro q hq
  have hqp : q ∈ p := by
    have hfil : q ∈ p.filter (fun r => r.1 ≠ "checksum") :=
      (List.perm_insertionSort keyLE _).mem_iff.mp hq
    exact List.mem_of_mem_filter hfil
  have : findVal p q.1 = some q.2 := findVal_eq_some_of_mem hnd hqp
  simp [Function.comp, this]

/-- Filtering and sorting is invariant under permutation of a map with
unique keys. -/
theorem canonicalParams_perm {p q : Params} (hperm : p.Perm q)
    (hnd : (p.map Prod.fst).Nodup) :
    canonicalParams p = canonicalParams q := by
  unfold canonicalParams
  have hfil : (p.filter (fun r => r.1 ≠ "checksum")).Perm
      (q.filter (fun r => r.1 ≠ "checksum")) := hperm.filter _
  have hndf : ((p.filter (fun r => r.1 ≠ "checksum")).map Prod.fst).Nodup := by
    rw [map_fst_filter_checksum]
    exact hnd.filter _
  have key : (p.filter (fun r => r.1 ≠ "checksum")).insertionSort keyLE
      = (q.filter (fun r => r.1 ≠ "checksum")).insertionSort keyLE := by
    apply List.eq_of_perm_of_sorted (r := keyLT)
    · exact ((List.perm_insertionSort keyLE _).trans hfil).trans
        (List.perm_insertionSort keyLE _).symm
    · have hs := List.sorted_insertionSort keyLE (p.filter (fun r => r.1 ≠ "checksum"))
      have hnd2 : ((p.filter (fun r => r.1 ≠ "checksum")).insertionSort keyLE).Pairwise
          (fun a b => a.1 ≠ b.1) := by
        have := hndf.perm (((List.perm_insertionSort keyLE _).map Prod.fst)).symm
        exact (List.pairwise_map).mp this
      exact sorted_keyLT_of_keyLE hs hnd2
    · have hs := List.sorted_insertionSort keyLE (q.filter (fun r => r.1 ≠ "checksum"))
      have hndq : ((q.filter (fun r => r.1 ≠ "checksum")).map Prod.fst).Nodup := by
        rw [map_fst_filter_checksum]
        exact (hnd.perm (hperm.map Prod.fst)).filter _
      have hnd2 : ((q.filter (fun r => r.1 ≠ "checksum")).insertionSort keyLE).Pairwise
          (fun a b => a.1 ≠ b.1) := by
        have := hndq.perm (((List.perm_insertionSort keyLE _).map Prod.fst)).symm
        exact (List.pairwise_map).mp this
      exact sorted_keyLT_of_keyLE hs hnd2
  rw [key]

/-! ### Validation of the signing model against the in-repo test vectors -/

/-- `TestParamsString`: parameter ordering and `checksum` exclusion. -/
theorem paramsString_ordering_vector :
    paramsString [("c", "foo"), ("a", "23"), ("b", "true"),
                  ("checksum", "fff0000000000fff")] = "a=23&b=true&c=foo" := by
  decide

/-- `TestParamsString`: URL-safe encoding of a space. -/
theorem paramsString_escape_vector :
    paramsString [("name", "Meeting Name")] = "name=Meeting+Name" := by
  decide

set_option maxRecDepth 400000 in
/-- `TestSign`: the checksum of the documentation example request. -/
theorem sign_matches_test_vector :
    Sign "create"
      [("name", "Test Meeting"), ("meetingID", "abc123"),
       ("attendeePW", "111222"), ("moderatorPW", "333444")]
      "639259d4-9dd8-4b25-bf01-95f9567eaf4b"
    = "94ec9a89c7dc53af01537aef9f8ecbae5e95cd7f37cd4bf18101b976a4a8b097" := by
  decide

set_option maxRecDepth 400000 in
/-- `TestString`: the checksum of the empty-parameter request. -/
theorem sign_matches_empty_params_vector :
    Sign "create" [] "639259d4-9dd8-4b25-bf01-95f9567eaf4b"
    = "272c9555258496a3f19c5ad8f599af2a4ebec031381ff1e37b34842c42c12284" := by
  decide

/-! ### Claim C1 -/

set_option maxRecDepth 400000 in
/-- Claim C1, counterexample: at the documented test request the checksum
produced by `Sign` is NOT the hex SHA-1 digest of
`R || canonical(P) || S` — the repository's own `TestSign` fixture is a
64-hex-character SHA-256 digest (it is, moreover, exactly the SHA-1
checksum that `TestVerify` accepts for the same input, so the SHA-1 digest
of this input is a 40-character string different from `Sign`'s output). -/
theorem sign_is_not_sha1_counterexample :
    Sign "create"
      [("name", "Test Meeting"), ("meetingID", "abc123"),
       ("attendeePW", "111222"), ("moderatorPW", "333444")]
      "639259d4-9dd8-4b25-bf01-95f9567eaf4b"
    ≠ sha1Hex (strBytes ("create"
        ++ canonicalParams
          [("name", "Test Meeting"), ("meetingID", "abc123"),
           ("attendeePW", "111222"), ("moderatorPW", "333444")]
        ++ "639259d4-9dd8-4b25-bf01-95f9567eaf4b")) := by
  decide

/-- Claim C1 (amended): for every resource name R, parameter map P (unique
keys, string values) and secret S, the request checksum produced by `Sign`
equals the hex SHA-256 digest of `R || canonical(P) || S`, where
`canonical(P)` is the URL-encoded `key=value&…` string with keys sorted
lexicographically ascending, values URL-encoded with space as `+`, and any
existing `checksum` entry excluded; for empty P the digest input is
`R || S`. -/
theorem sign_is_sha256_of_canonical (r : String) (p : Params) (s : String)
    (hnd : (p.map Prod.fst).Nodup) :
    Sign r p s = sha256Hex (strBytes (r ++ canonicalParams p ++ s)) := by
  unfold Sign
  rw [paramsString_eq_canonical hnd]

set_option maxRecDepth 400000 in
/-- Witness for the amended claim C1, at the `TestSign` request. -/
theorem sign_is_sha256_of_canonical_witness :
    (([(("name" : String), ("Test Meeting" : String)), ("meetingID", "abc123"),
       ("attendeePW", "111222"), ("moderatorPW", "333444")].map Prod.fst).Nodup)
    ∧ Sign "create"
        [("name", "Test Meeting"), ("meetingID", "abc123"),
         ("attendeePW", "111222"), ("moderatorPW", "333444")]
        "639259d4-9dd8-4b25-bf01-95f9567eaf4b"
      = sha256Hex (strBytes ("create"
          ++ canonicalParams
            [("name", "Test Meeting"), ("meetingID", "abc123"),
             ("attendeePW", "111222"), ("moderatorPW", "333444")]
          ++ "639259d4-9dd8-4b25-bf01-95f9567eaf4b")) :=
  ⟨by decide,
   sign_is_sha256_of_canonical "create"
     [("name", "Test Meeting"), ("meetingID", "abc123"),
      ("attendeePW", "111222"), ("moderatorPW", "333444")]
     "639259d4-9dd8-4b25-bf01-95f9567eaf4b" (by decide)⟩

/-! ### Claim C8 -/

/-- Claim C8: for every resource r, secret s, and any two parameter maps P
and Q that are equal as mappings (same key-value pairs, regardless of how
or in what order the maps were built), `Sign` produces the same checksum:
`Sign(r, P, s) = Sign(r, Q, s)`. -/
theorem sign_order_independent (r s : String) (p q : Params)
    (hperm : p.Perm q) (hnd : (p.map Prod.fst).Nodup) :
    Sign r p s = Sign r q s := by
  unfold Sign
  rw [paramsString_eq_canonical hnd,
      paramsString_eq_canonical ((hperm.map Prod.fst).nodup hnd),
      canonicalParams_perm hperm hnd]

/-- Witness for claim C8, on two orderings of the same two-entry map. -/
theorem sign_order_independent_witness :
    (([(("b" : String), ("2" : String)), ("a", "1")].Perm [("a", "1"), ("b", "2")])
      ∧ (([(("b" : String), ("2" : String)), ("a", "1")].map Prod.fst).Nodup))
    ∧ Sign "res" [("b", "2"), ("a", "1")] "sec"
      = Sign "res" [("a", "1"), ("b", "2")] "sec" :=
  ⟨⟨by decide, by decide⟩,
   sign_order_independent "res" "sec" [("b", "2"), ("a", "1")]
     [("a", "1"), ("b", "2")] (by decide) (by decide)⟩

/-! ## Settings merge (`pkg/store/settings.go`) -/

/-- Go `store.Tags`: a list of string labels. -/
abbrev Tags : Type := List String

/-- The `sort.Strings` call inside `Tags.Eq` (and its in-place effect). -/
def sortTags (t : Tags) : Tags := t.insertionSort strLe

/-- `Tags.Eq`: sort both lists, join with a space, compare. -/
def tagsEq (t o : Tags) : Bool :=
  String.intercalate " " (sortTags t) == String.intercalate " " (sortTags o)

/-- Go `store.BackendSettings`; the `Tags` slice may be nil (`none`). -/
structure BackendSettings where
  tags : Option Tags
deriving DecidableEq

/-- Go `store.DefaultPresentationSettings`. -/
structure DefaultPresentationSettings where
  url : String
  force : Bool
deriving DecidableEq

/-- Go `store.FrontendSettings`; both fields may be nil (`none`). -/
structure FrontendSettings where
  requiredTags : Option Tags
  defaultPresentation : Option DefaultPresentationSettings
deriving DecidableEq

/-- `BackendSettings.Merge`: returns the merged settings and the `updated`
flag.  `Tags.Eq` sorts both its receiver and argument in place, so the
stored tag list comes out sorted whenever the patch's tags are non-nil. -/
def BackendSettings.merge (s u : BackendSettings) : BackendSettings × Bool :=
  match u.tags with
  | none => (s, false)
  | some ut =>
    if tagsEq (s.tags.getD []) ut
    then ({ tags := s.tags.map sortTags }, false)
    else ({ tags := some (sortTags ut) }, true)

/-- `FrontendSettings.Merge`: tags handled like `BackendSettings.Merge`;
a non-nil `DefaultPresentation` patch is always copied and always sets
`updated`. -/
def FrontendSettings.merge (s u : FrontendSettings) : FrontendSettings × Bool :=
  let rt : Option Tags × Bool :=
    match u.requiredTags with
    | none => (s.requiredTags, false)
    | some ut =>
      if tagsEq (s.requiredTags.getD []) ut
      then (s.requiredTags.map sortTags, false)
      else (some (sortTags ut), true)
  let dp : Option DefaultPresentationSettings × Bool :=
    match u.defaultPresentation with
    | none => (s.defaultPresentation, false)
    | some d => (some d, true)
  ({ requiredTags := rt.1, defaultPresentation := dp.1 }, rt.2 || dp.2)

/-- Sorting tags is permutation-invariant (`strLe` is total, transitive and
antisymmetric), so `Tags.Eq` ignores ordering. -/
theorem sortTags_perm_eq {t o : Tags} (h : t.Perm o) : sortTags t = sortTags o :=
  List.eq_of_perm_of_sorted
    ((List.perm_insertionSort strLe t).trans (h.trans (List.perm_insertionSort strLe o).symm))
    (List.sorted_insertionSort strLe t)
    (List.sorted_insertionSort strLe o)

/-! ### Claim C9 -/

/-- Claim C9, counterexample: merging a patch whose `DefaultPresentation`
equals the stored one returns `changed = true` although no field was
updated to a different value. -/
theorem frontend_merge_changed_counterexample :
    (FrontendSettings.merge
        ⟨none, some ⟨"https://p.example/default.pdf", false⟩⟩
        ⟨none, some ⟨"https://p.example/default.pdf", false⟩⟩).2 = true
    ∧ (FrontendSettings.merge
        ⟨none, some ⟨"https://p.example/default.pdf", false⟩⟩
        ⟨none, some ⟨"https://p.example/default.pdf", false⟩⟩).1
      = ⟨none, some ⟨"https://p.example/default.pdf", false⟩⟩ := by
  decide

/-- Claim C9 (amended): `BackendSettings.Merge` and `FrontendSettings.Merge`
leave every field whose patch value is null unchanged and compare tag sets
by canonical sort-and-compare (ordering irrelevant).  The changed flag is
true for the tags fields exactly when the patched tag set differs from the
stored one; for the default presentation it is true whenever the patch
field is non-null, even if the value is unchanged. -/
theorem settings_merge_amended (s : BackendSettings) (f : FrontendSettings) :
    BackendSettings.merge s ⟨none⟩ = (s, false)
    ∧ FrontendSettings.merge f ⟨none, none⟩ = (f, false)
    ∧ (∀ ut, (BackendSettings.merge s ⟨some ut⟩).2 = !tagsEq (s.tags.getD []) ut)
    ∧ (∀ ut, (FrontendSettings.merge f ⟨some ut, none⟩).2
        = !tagsEq (f.requiredTags.getD []) ut)
    ∧ (∀ ut ut', ut.Perm ut' →
        (BackendSettings.merge s ⟨some ut⟩).2 = (BackendSettings.merge s ⟨some ut'⟩).2)
    ∧ (∀ d, (FrontendSettings.merge f ⟨none, some d⟩).2 = true
        ∧ (FrontendSettings.merge f ⟨none, some d⟩).1.defaultPresentation = some d
        ∧ (FrontendSettings.merge f ⟨none, some d⟩).1.requiredTags = f.requiredTags) := by
  refine ⟨rfl, rfl, ?_, ?_, ?_, ?_⟩
  · intro ut
    by_cases h : tagsEq (s.tags.getD []) ut = true
    · simp [BackendSettings.merge, h]
    · simp [BackendSettings.merge, h]
  · intro ut
    by_cases h : tagsEq (f.requiredTags.getD []) ut = true
    · simp [FrontendSettings.merge, h]
    · simp [FrontendSettings.merge, h]
  · intro ut ut' hperm
    have hsort : sortTags ut = sortTags ut' := sortTags_perm_eq hperm
    by_cases h : tagsEq (s.tags.getD []) ut = true
    · have h2 : tagsEq (s.tags.getD []) ut' = true := by
        unfold tagsEq at h ⊢
        rw [← hsort]
        exact h
      simp [BackendSettings.merge, h, h2]
    · have h2 : ¬ tagsEq (s.tags.getD []) ut' = true := by
        unfold tagsEq at h ⊢
        rw [← hsort]
        exact h
      simp [BackendSettings.merge, h, h2]
  · intro d
    by_cases h : f.requiredTags = none
    · simp [FrontendSettings.merge, h]
    · simp [FrontendSettings.merge, h]

/-- Witness for the amended claim C9: a permuted but set-equal tags patch
reports no change, at concrete inputs. -/
theorem settings_merge_amended_witness :
    (BackendSettings.merge ⟨some ["b", "a"]⟩ ⟨some ["a", "b"]⟩).2
      = !tagsEq ["b", "a"] ["a", "b"] :=
  (settings_merge_amended ⟨some ["b", "a"]⟩ ⟨none, none⟩).2.2.1 ["a", "b"]

/-! ## `Meeting` and `Meeting.Update` (`pkg/bbb/response.go`) -/

/-- XML metadata mapping. -/
abbrev Metadata : Type := List (String × String)

/-- BBB timestamps (Go `bbb.Timestamp`, an integer). -/
abbrev Timestamp : Type := Int

/-- Go `bbb.Breakout`. -/
structure Breakout where
  ParentMeetingID : String
  Sequence : Int
  FreeJoin : Bool
deriving DecidableEq

/-- Go `bbb.Attendee`. -/
structure Attendee where
  UserID : String
  InternalUserID : String
  FullName : String
  Role : String
  IsPresenter : Bool
  IsListeningOnly : Bool
  HasJoinedVoice : Bool
  HasVideo : Bool
  ClientType : String
deriving DecidableEq

/-- Go `bbb.Meeting` (all serialised fields; the `XMLName` tag carries no
data). -/
structure Meeting where
  MeetingName : String
  MeetingID : String
  InternalMeetingID : String
  CreateTime : Timestamp
  CreateDate : String
  VoiceBridge : String
  DialNumber : String
  AttendeePW : String
  ModeratorPW : String
  Running : Bool
  Duration : Int
  Recording : Bool
  HasBeenForciblyEnded : Bool
  StartTime : Timestamp
  EndTime : Timestamp
  ParticipantCount : Int
  ListenerCount : Int
  VoiceParticipantCount : Int
  VideoCount : Int
  MaxUsers : Int
  ModeratorCount : Int
  IsBreakout : Bool
  Metadata : Metadata
  Attendees : List Attendee
  BreakoutRooms : List String
  Breakout : Option Breakout
deriving DecidableEq

/-- `Meeting.Update`: both identifier checks happen before the wholesale
assignment `*m = *update`.  The returned pair is the error (if any) and the
resulting value of the receiver `m`. -/
def Meeting.update (m u : Meeting) : Option String × Meeting :=
  if m.MeetingID ≠ u.MeetingID then
    (some "meeting ids do not match for update", m)
  else if m.InternalMeetingID ≠ u.InternalMeetingID then
    (some "internal ids do not match for update", m)
  else (none, u)

/-! ### Claim C7 -/

/-- Claim C7: for all meetings m and m' whose identifiers do not match
(differing meeting ID or differing internal meeting ID),
`Meeting.Update(m, m')` returns an error and leaves m entirely unmutated. -/
theorem meeting_update_mismatch_fails (m u : Meeting)
    (h : m.MeetingID ≠ u.MeetingID ∨ m.InternalMeetingID ≠ u.InternalMeetingID) :
    (Meeting.update m u).1.isSome = true ∧ (Meeting.update m u).2 = m := by
  rcases h with h | h
  · simp [Meeting.update, h]
  · by_cases h2 : m.MeetingID = u.MeetingID
    · simp [Meeting.update, h2, h]
    · simp [Meeting.update, h2]

/-- Two meetings differing only in their identifiers, for the C7 witness. -/
def meetingA : Meeting :=
  ⟨"Test Meeting", "abc123", "int-abc123", 0, "", "", "", "111222", "333444",
   false, 0, false, false, 0, 0, 0, 0, 0, 0, 0, 0, false, [], [], [], none⟩

/-- Second meeting of the C7 witness. -/
def meetingB : Meeting :=
  ⟨"Test Meeting", "xyz789", "int-xyz789", 0, "", "", "", "111222", "333444",
   false, 0, false, false, 0, 0, 0, 0, 0, 0, 0, 0, false, [], [], [], none⟩

/-- Witness for claim C7 at two concrete meetings with different IDs. -/
theorem meeting_update_mismatch_fails_witness :
    (meetingA.MeetingID ≠ meetingB.MeetingID
      ∨ meetingA.InternalMeetingID ≠ meetingB.InternalMeetingID)
    ∧ ((Meeting.update meetingA meetingB).1.isSome = true
      ∧ (Meeting.update meetingA meetingB).2 = meetingA) :=
  ⟨Or.inl (by decide),
   meeting_update_mismatch_fails meetingA meetingB (Or.inl (by decide))⟩

/-! ## Command queue (`pkg/store/command_queue.go`) -/

/-- The `state` column of the `commands` table. -/
inductive CmdState
  | requested
  | success
  | error
deriving DecidableEq

/-- A row of the `commands` table (Go `store.Command`); times are abstract
instants (`Nat`), JSON payloads are kept as strings. -/
structure CRow where
  id : String
  seq : Nat
  state : CmdState
  action : String
  params : String
  result : Option String
  deadline : Nat
  startedAt : Option Nat
  stoppedAt : Option Nat
  createdAt : Option Nat
deriving DecidableEq

/-- The claim query of `process`:
`SELECT … WHERE state = 'requested' ORDER BY seq ASC LIMIT 1`.
Returns the first row carrying the minimal `seq` among requested rows. -/
def selectNext : List CRow → Option CRow
  | [] => none
  | r :: rest =>
    if r.state = CmdState.requested then
      match selectNext rest with
      | none => some r
      | some m => if m.seq < r.seq then some m else some r
    else selectNext rest

/-- The terminal update of `process`:
`UPDATE commands SET state, result, started_at, stopped_at WHERE id = $1`. -/
def writeResult (rows : List CRow) (id : String) (st : CmdState)
    (res : Option String) (t0 t2 : Nat) : List CRow :=
  rows.map (fun r =>
    if r.id = id then
      { r with state := st, result := res, startedAt := some t0, stoppedAt := some t2 }
    else r)

/-- `CommandQueue.process`: claim the next requested row; if its deadline
lies before the check instant `t1`, finish it as `error`/`timedout` without
calling the handler; otherwise call the handler and record its outcome.
`t0` is the instant taken for `started_at` and `t2` the one for
`stopped_at`.  The boolean mirrors the `dequeued` return value. -/
def process (rows : List CRow) (handler : CRow → Except String String)
    (t0 t1 t2 : Nat) : List CRow × Bool :=
  match selectNext rows with
  | none => (rows, false)
  | some cmd =>
    let sr : CmdState × String :=
      if cmd.deadline < t1 then (CmdState.error, "timedout")
      else
        match handler cmd with
        | Except.ok v => (CmdState.success, v)
        | Except.error e => (CmdState.error, e)
    (writeResult rows cmd.id sr.1 (some sr.2) t0 t2, true)

/-- Row lookup by primary key. -/
def rowById (rows : List CRow) (id : String) : Option CRow :=
  rows.find? (fun r => r.id = id)

theorem selectNext_mem {rows : List CRow} {cmd : CRow}
    (h : selectNext rows = some cmd) : cmd ∈ rows := by
  induction rows with
  | nil => cases h
  | cons r rest ih =>
    by_cases hr : r.state = CmdState.requested
    · simp only [selectNext, if_pos hr] at h
      cases hsel : selectNext rest with
      | none =>
        rw [hsel] at h
        dsimp only at h
        exact List.mem_cons.mpr (Or.inl (Option.some_inj.mp h).symm)
      | some m =>
        rw [hsel] at h
        dsimp only at h
        by_cases hseq : m.seq < r.seq
        · rw [if_pos hseq] at h
          exact List.mem_cons.mpr (Or.inr (ih (hsel.trans (congrArg some (Option.some_inj.mp h)))))
        · rw [if_neg hseq] at h
          exact List.mem_cons.mpr (Or.inl (Option.some_inj.mp h).symm)
    · simp only [selectNext, if_neg hr] at h
      exact List.mem_cons.mpr (Or.inr (ih h))

theorem selectNext_requested {rows : List CRow} {cmd : CRow}
    (h : selectNext rows = some cmd) : cmd.state = CmdState.requested := by
  induction rows with
  | nil => cases h
  | cons r rest ih =>
    by_cases hr : r.state = CmdState.requested
    · simp only [selectNext, if_pos hr] at h
      cases hsel : selectNext rest with
      | none =>
        rw [hsel] at h
        dsimp only at h
        rw [← Option.some_inj.mp h]
        exact hr
      | some m =>
        rw [hsel] at h
        dsimp only at h
        by_cases hseq : m.seq < r.seq
        · rw [if_pos hseq] at h
          exact ih (hsel.trans (congrArg some (Option.some_inj.mp h)))
        · rw [if_neg hseq] at h
          rw [← Option.some_inj.mp h]
          exact hr
    · simp only [selectNext, if_neg hr] at h
      exact ih h

theorem selectNext_none_not_requested {rows : List CRow}
    (h : selectNext rows = none) :
    ∀ r ∈ rows, r.state ≠ CmdState.requested := by
  induction rows with
  | nil => intro r hr; cases hr
  | cons r rest ih =>
    intro q hq
    by_cases hr : r.state = CmdState.requested
    · simp only [selectNext, if_pos hr] at h
      cases hsel : selectNext rest <;> rw [hsel] at h <;> dsimp only at h
      · cases h
      · split at h <;> cases h
    · simp only [selectNext, if_neg hr] at h
      rcases List.mem_cons.mp hq with hq | hq
      · rw [hq]; exact hr
      · exact ih h q hq

theorem selectNext_min {rows : List CRow} {cmd : CRow}
    (h : selectNext rows = some cmd) :
    ∀ r ∈ rows, r.state = CmdState.requested → cmd.seq ≤ r.seq := by
  induction rows generalizing cmd with
  | nil => cases h
  | cons r rest ih =>
    intro q hq hqreq
    by_cases hr : r.state = CmdState.requested
    · simp only [selectNext, if_pos hr] at h
      cases hsel : selectNext rest with
      | none =>
        rw [hsel] at h
        dsimp only at h
        rcases List.mem_cons.mp hq with hq | hq
        · rw [← Option.some_inj.mp h, hq]
        · exact absurd hqreq (selectNext_none_not_requested hsel q hq)
      | some m =>
        rw [hsel] at h
        dsimp only at h
        by_cases hseq : m.seq < r.seq
        · rw [if_pos hseq] at h
          have hcmd := Option.some_inj.mp h
          subst hcmd
          rcases List.mem_cons.mp hq with hq | hq
          · rw [hq]
            exact le_of_lt hseq
          · exact ih hsel q hq hqreq
        · rw [if_neg hseq] at h
          have hcmd := Option.some_inj.mp h
          subst hcmd
          rcases List.mem_cons.mp hq with hq | hq
          · rw [hq]
          · exact le_trans (not_lt.mp hseq) (ih hsel q hq hqreq)
    · simp only [selectNext, if_neg hr] at h
      rcases List.mem_cons.mp hq with hq | hq
      · exact absurd (hq ▸ hqreq) hr
      · exact ih h q hq hqreq

theorem rowById_writeResult {rows : List CRow} {cmd : CRow}
    (hnd : (rows.map (fun r => r.id)).Nodup) (hmem : cmd ∈ rows)
    (st : CmdState) (res : Option String) (t0 t2 : Nat) :
    rowById (writeResult rows cmd.id st res t0 t2) cmd.id
      = some { cmd with
          state := st, result := res,
          startedAt := some t0, stoppedAt := some t2 } := by
  induction rows with
  | nil => cases hmem
  | cons r rest ih =>
    simp only [List.map_cons, List.nodup_cons] at hnd
    by_cases hid : r.id = cmd.id
    · have hrc : r = cmd := by
        rcases List.mem_cons.mp hmem with h | h
        · exact h.symm
        · exact absurd (hid ▸ List.mem_map.mpr ⟨cmd, h, rfl⟩) hnd.1
      subst hrc
      simp [writeResult, rowById, List.find?]
    · have hmem' : cmd ∈ rest := by
        rcases List.mem_cons.mp hmem with h | h
        · exact absurd (congrArg CRow.id h.symm) hid
        · exact h
      have ih' := ih hnd.2 hmem'
      simp only [writeResult, rowById, List.map_cons, List.find?] at ih' ⊢
      simp [hid, ih']

/-! ### Claim C2 -/

/-- Claim C2: each `process` call that claims a command row — the smallest
`seq` with `state = requested` — completes it as follows: if the row's
deadline already lies before the check instant, the row is written with
`state = error` and `result = timedout` and the handler is not invoked
(the outcome is the same for every handler); otherwise the handler is
invoked and on success the row is written with `state = success` and the
handler's result, on handler error with `state = error` and the error
message. -/
theorem commandQueue_process_spec (rows : List CRow)
    (handler : CRow → Except String String) (t0 t1 t2 : Nat) (cmd : CRow)
    (hnd : (rows.map (fun r => r.id)).Nodup)
    (hsel : selectNext rows = some cmd) :
    (cmd ∈ rows ∧ cmd.state = CmdState.requested
      ∧ ∀ r ∈ rows, r.state = CmdState.requested → cmd.seq ≤ r.seq)
    ∧ (cmd.deadline < t1 →
        (∀ h2 : CRow → Except String String,
          process rows h2 t0 t1 t2 = process rows handler t0 t1 t2)
        ∧ rowById (process rows handler t0 t1 t2).1 cmd.id
          = some { cmd with
              state := CmdState.error, result := some "timedout",
              startedAt := some t0, stoppedAt := some t2 })
    ∧ (¬ cmd.deadline < t1 →
        rowById (process rows handler t0 t1 t2).1 cmd.id
          = some { cmd with
              state := match handler cmd with
                | Except.ok _ => CmdState.success
                | Except.error _ => CmdState.error,
              result := some (match handler cmd with
                | Except.ok v => v
                | Except.error e => e),
              startedAt := some t0, stoppedAt := some t2 }) := by
  refine ⟨⟨selectNext_mem hsel, selectNext_requested hsel, selectNext_min hsel⟩, ?_, ?_⟩
  · intro hd
    refine ⟨?_, ?_⟩
    · intro h2
      simp [process, hsel, if_pos hd]
    · simp only [process, hsel, if_pos hd]
      exact rowById_writeResult hnd (selectNext_mem hsel) _ _ t0 t2
  · intro hd
    simp only [process, hsel, if_neg hd]
    cases hh : handler cmd with
    | ok v =>
      simpa [hh] using rowById_writeResult hnd (selectNext_mem hsel)
        CmdState.success (some v) t0 t2
    | error e =>
      simpa [hh] using rowById_writeResult hnd (selectNext_mem hsel)
        CmdState.error (some e) t0 t2

/-- A concrete requested command row, for witnesses. -/
def cmdRowW : CRow :=
  ⟨"cmd-1", 1, CmdState.requested, "refresh", "\x7b\x7d", none, 100, none, none, some 5⟩

/-- A concrete handler that succeeds, for witnesses. -/
def cmdHandlerW : CRow → Except String String := fun _ => Except.ok "updated"

/-- Witness for claim C2: one requested row, a live deadline, a succeeding
handler. -/
theorem commandQueue_process_spec_witness :
    (([cmdRowW].map (fun r => r.id)).Nodup ∧ selectNext [cmdRowW] = some cmdRowW
      ∧ ¬ cmdRowW.deadline < 50)
    ∧ rowById (process [cmdRowW] cmdHandlerW 40 50 60).1 cmdRowW.id
      = some { cmdRowW with
          state := CmdState.success, result := some "updated",
          startedAt := some 40, stoppedAt := some 60 } :=
  ⟨⟨by decide, by decide, by decide⟩,
   (commandQueue_process_spec [cmdRowW] cmdHandlerW 40 50 60 cmdRowW
     (by decide) (by decide)).2.2 (by decide)⟩

/-! ### Claim C3: the concurrent claim/finish protocol

`Receive`/`process` on each consumer runs the claim (`SELECT … FOR UPDATE
SKIP LOCKED`) and the terminal `UPDATE` inside one transaction.  The
database guarantees that a locked row is invisible to other claimants and
that the lock is held until the terminal write commits.  This is modelled
as a labelled transition system: a `claim` step atomically locks the next
eligible row for one consumer, a `finish` step writes the terminal state
and releases the lock, an `enqueue` step (the `Queue` method) inserts a
fresh requested row. -/

/-- The queue state seen by `n` consumers: the table rows plus, per
consumer, the id of the row its open transaction has locked. -/
structure QState (n : Nat) where
  rows : List CRow
  claims : Fin n → Option String

/-- Transition labels. -/
inductive QLabel (n : Nat)
  | enqueue (row : CRow)
  | claim (c : Fin n) (id : String)
  | finish (c : Fin n) (id : String) (st : CmdState) (res : Option String)

/-- One atomic step of the queue protocol. -/
inductive QStep {n : Nat} : QState n → QLabel n → QState n → Prop
  | enqueue (s : QState n) (row : CRow) :
      row.state = CmdState.requested →
      row.id ∉ s.rows.map (fun r => r.id) →
      QStep s (QLabel.enqueue row) ⟨s.rows ++ [row], s.claims⟩
  | claim (s : QState n) (c : Fin n) (row : CRow) :
      s.claims c = none →
      row ∈ s.rows →
      row.state = CmdState.requested →
      (∀ c', s.claims c' ≠ some row.id) →
      (∀ r ∈ s.rows, r.state = CmdState.requested →
        (∀ c', s.claims c' ≠ some r.id) → row.seq ≤ r.seq) →
      QStep s (QLabel.claim c row.id)
        ⟨s.rows, Function.update s.claims c (some row.id)⟩
  | finish (s : QState n) (c : Fin n) (id : String) (st : CmdState)
      (res : Option String) (t0 t2 : Nat) :
      s.claims c = some id →
      st ≠ CmdState.requested →
      QStep s (QLabel.finish c id st res)
        ⟨writeResult s.rows id st res t0 t2, Function.update s.claims c none⟩

/-- A run of the protocol, with its list of labels. -/
inductive QSteps {n : Nat} : QState n → List (QLabel n) → QState n → Prop
  | refl (s : QState n) : QSteps s [] s
  | step {s s₁ s₂ : QState n} {l : QLabel n} {ls : List (QLabel n)} :
      QStep s l s₁ → QSteps s₁ ls s₂ → QSteps s (l :: ls) s₂

/-- No two consumers hold the same row. -/
def ClaimsInj {n : Nat} (s : QState n) : Prop :=
  ∀ c c' : Fin n, s.claims c = s.claims c' → s.claims c = none ∨ c = c'

/-- The protocol invariant: unique row ids, mutually exclusive claims, and
every claimed id pointing at a requested row of the table. -/
def QInv {n : Nat} (s : QState n) : Prop :=
  (s.rows.map (fun r => r.id)).Nodup
  ∧ ClaimsInj s
  ∧ ∀ c id, s.claims c = some id →
      ∃ r ∈ s.rows, r.id = id ∧ r.state = CmdState.requested

/-- After a row is finished: its id stays in the table, never again in
state `requested`, and no consumer holds it. -/
def RowDead {n : Nat} (s : QState n) (id : String) : Prop :=
  (∀ r ∈ s.rows, r.id = id → r.state ≠ CmdState.requested)
  ∧ (∃ r ∈ s.rows, r.id = id)
  ∧ ∀ c, s.claims c ≠ some id

/-- Does the label finish the row `id`? -/
def isFinishOf {n : Nat} (id : String) : QLabel n → Bool
  | QLabel.finish _ fid _ _ => fid == id
  | _ => false

/-- How many labels of the run finish the row `id`. -/
def finishCount {n : Nat} (ls : List (QLabel n)) (id : String) : Nat :=
  (ls.filter (isFinishOf id)).length

theorem writeResult_map_id (rows : List CRow) (id : String) (st : CmdState)
    (res : Option String) (t0 t2 : Nat) :
    (writeResult rows id st res t0 t2).map (fun r => r.id)
      = rows.map (fun r => r.id) := by
  unfold writeResult
  rw [List.map_map]
  apply List.map_congr_left
  intro r _
  by_cases h : r.id = id
  · simp [Function.comp, h]
  · simp [Function.comp, h]

theorem mem_writeResult_of_ne {rows : List CRow} {r : CRow} {id : String}
    (hmem : r ∈ rows) (hne : r.id ≠ id) (st : CmdState) (res : Option String)
    (t0 t2 : Nat) : r ∈ writeResult rows id st res t0 t2 := by
  unfold writeResult
  refine List.mem_map.mpr ⟨r, hmem, ?_⟩
  exact if_neg hne

theorem qinv_step {n : Nat} {s s' : QState n} {l : QLabel n}
    (hinv : QInv s) (hstep : QStep s l s') : QInv s' := by
  obtain ⟨hnd, hinj, hclaimed⟩ := hinv
  cases hstep with
  | enqueue row hreq hfresh =>
    refine ⟨?_, hinj, ?_⟩
    · simp only [List.map_append, List.map_cons, List.map_nil]
      exact List.Nodup.append hnd (List.nodup_singleton _)
        (by
          intro x hx hx1
          rcases List.mem_singleton.mp hx1 with rfl
          exact hfresh hx)
    · intro c id hc
      obtain ⟨r, hr, hrid, hrreq⟩ := hclaimed c id hc
      exact ⟨r, List.mem_append_left _ hr, hrid, hrreq⟩
  | claim c row hnone hmem hreq hunclaimed hmin =>
    refine ⟨hnd, ?_, ?_⟩
    · intro c₁ c₂ hcc
      by_cases h1 : c₁ = c
      · by_cases h2 : c₂ = c
        · exact Or.inr (h1.trans h2.symm)
        · subst h1
          simp only [Function.update_same, Function.update_noteq h2] at hcc
          exact absurd hcc.symm (hunclaimed c₂)
      · by_cases h2 : c₂ = c
        · subst h2
          simp only [Function.update_same, Function.update_noteq h1] at hcc
          exact absurd hcc (hunclaimed c₁)
        · simp only [Function.update_noteq h1, Function.update_noteq h2] at hcc ⊢
          exact hinj c₁ c₂ hcc
    · intro c' id hc'
      by_cases h : c' = c
      · subst h
        simp only [Function.update_same] at hc'
        exact ⟨row, hmem, Option.some_inj.mp hc', hreq⟩
      · simp only [Function.update_noteq h] at hc'
        exact hclaimed c' id hc'
  | finish c id st res t0 t2 hheld hterm =>
    refine ⟨?_, ?_, ?_⟩
    · rw [writeResult_map_id]
      exact hnd
    · intro c₁ c₂ hcc
      by_cases h1 : c₁ = c
      · subst h1
        exact Or.inl (Function.update_same c₁ none s.claims)
      · by_cases h2 : c₂ = c
        · subst h2
          simp only [Function.update_noteq h1, Function.update_same] at hcc
          refine Or.inl ?_
          show Function.update s.claims c₂ none c₁ = none
          rw [Function.update_noteq h1]
          exact hcc
        · simp only [Function.update_noteq h1, Function.update_noteq h2] at hcc ⊢
          exact hinj c₁ c₂ hcc
    · intro c' id' hc'
      by_cases h : c' = c
      · subst h
        simp only [Function.update_same] at hc'
        cases hc'
      · simp only [Function.update_noteq h] at hc'
        obtain ⟨r, hr, hrid, hrreq⟩ := hclaimed c' id' hc'
        have hne : id' ≠ id := by
          intro heq
          subst heq
          rcases hinj c' c (hc'.trans hheld.symm) with h0 | h0
          · rw [hc'] at h0; cases h0
          · exact h h0
        exact ⟨r, mem_writeResult_of_ne hr (hrid ▸ hne) st res t0 t2, hrid, hrreq⟩

theorem finish_makes_dead {n : Nat} {s s' : QState n} {c : Fin n} {id : String}
    {st : CmdState} {res : Option String}
    (hinv : QInv s) (hstep : QStep s (QLabel.finish c id st res) s') :
    RowDead s' id := by
  obtain ⟨hnd, hinj, hclaimed⟩ := hinv
  cases hstep with
  | finish c id st res t0 t2 hheld hterm =>
    obtain ⟨r₀, hr₀, hr₀id, hr₀req⟩ := hclaimed c id hheld
    refine ⟨?_, ?_, ?_⟩
    · intro r' hr' hr'id
      obtain ⟨r, hr, hreq⟩ := List.mem_map.mp hr'
      by_cases h : r.id = id
      · rw [← hreq]
        simp only [if_pos h]
        exact hterm
      · rw [← hreq] at hr'id
        simp only [if_neg h] at hr'id
        exact absurd hr'id h
    · refine ⟨{ r₀ with
          state := st, result := res,
          startedAt := some t0, stoppedAt := some t2 }, ?_, hr₀id⟩
      refine List.mem_map.mpr ⟨r₀, hr₀, ?_⟩
      exact if_pos hr₀id
    · intro c'
      by_cases h : c' = c
      · subst h
        simp [Function.update_same]
      · simp only [Function.update_noteq h]
        intro hc'
        rcases hinj c' c (hc'.trans hheld.symm) with h0 | h0
        · rw [hc'] at h0; cases h0
        · exact h h0

theorem rowdead_step {n : Nat} {s s' : QState n} {l : QLabel n} {id : String}
    (hdead : RowDead s id) (hstep : QStep s l s') :
    RowDead s' id ∧ isFinishOf id l = false := by
  obtain ⟨hnoreq, ⟨rd, hrd, hrdid⟩, hnoclaim⟩ := hdead
  cases hstep with
  | enqueue row hreq hfresh =>
    have hne : row.id ≠ id := by
      intro heq
      exact hfresh (heq ▸ List.mem_map.mpr ⟨rd, hrd, hrdid⟩)
    refine ⟨⟨?_, ⟨rd, List.mem_append_left _ hrd, hrdid⟩, hnoclaim⟩, rfl⟩
    intro r' hr' hr'id
    rcases List.mem_append.mp hr' with h | h
    · exact hnoreq r' h hr'id
    · rcases List.mem_singleton.mp h with rfl
      exact absurd hr'id hne
  | claim c row hnone hmem hreq hunclaimed hmin =>
    have hne : row.id ≠ id := by
      intro heq
      exact hnoreq row hmem (heq ▸ rfl) hreq
    refine ⟨⟨hnoreq, ⟨rd, hrd, hrdid⟩, ?_⟩, rfl⟩
    intro c'
    by_cases h : c' = c
    · subst h
      simp only [Function.update_same]
      intro hc
      exact hne (Option.some_inj.mp hc)
    · simp only [Function.update_noteq h]
      exact hnoclaim c'
  | finish c fid st res t0 t2 hheld hterm =>
    have hne : fid ≠ id := by
      intro heq
      exact hnoclaim c (heq ▸ hheld)
    refine ⟨⟨?_, ?_, ?_⟩, ?_⟩
    · intro r' hr' hr'id
      obtain ⟨r, hr, hreq2⟩ := List.mem_map.mp hr'
      by_cases h : r.id = fid
      · have hrid : r.id = id := by
          rw [← hreq2] at hr'id
          simpa [h] using hr'id
        exact absurd (h.symm.trans hrid) hne
      · rw [← hreq2] at hr'id ⊢
        simp only [if_neg h] at hr'id ⊢
        exact hnoreq r hr hr'id
    · have hrdne : rd.id ≠ fid := by
        rw [hrdid]
        exact Ne.symm hne
      exact ⟨rd, mem_writeResult_of_ne hrd hrdne st res t0 t2, hrdid⟩
    · intro c'
      by_cases h : c' = c
      · subst h
        simp [Function.update_same]
      · simp only [Function.update_noteq h]
        exact hnoclaim c'
    · simp [isFinishOf, hne]

theorem rowdead_steps {n : Nat} {s s' : QState n} {ls : List (QLabel n)}
    {id : String} (hdead : RowDead s id) (hsteps : QSteps s ls s') :
    finishCount ls id = 0 := by
  revert hdead
  induction hsteps with
  | refl s => intro _; rfl
  | step hstep hrest ih =>
    intro hdead
    obtain ⟨hdead', hnotfin⟩ := rowdead_step hdead hstep
    unfold finishCount at ih ⊢
    rw [List.filter_cons]
    simp only [hnotfin]
    exact ih hdead'

theorem qinv_steps {n : Nat} {s s' : QState n} {ls : List (QLabel n)}
    (hinv : QInv s) (hsteps : QSteps s ls s') : QInv s' := by
  revert hinv
  induction hsteps with
  | refl s => exact id
  | step hstep hrest ih => exact fun hinv => ih (qinv_step hinv hstep)

theorem finishCount_le_one {n : Nat} {s s' : QState n} {ls : List (QLabel n)}
    {id : String} (hinv : QInv s) (hsteps : QSteps s ls s') :
    finishCount ls id ≤ 1 := by
  revert hinv
  induction hsteps with
  | refl s => intro _; exact Nat.zero_le 1
  | @step s s₁ s₂ l ls hstep hrest ih =>
    intro hinv
    by_cases hfin : isFinishOf id l = true
    · cases l with
      | enqueue row => simp [isFinishOf] at hfin
      | claim c cid => simp [isFinishOf] at hfin
      | finish c fid st res =>
        have hfid : fid = id := by
          simpa [isFinishOf] using hfin
        subst hfid
        have hdead : RowDead s₁ fid := finish_makes_dead hinv hstep
        have hzero : finishCount ls fid = 0 := rowdead_steps hdead hrest
        unfold finishCount at hzero ⊢
        rw [List.filter_cons, if_pos hfin, List.length_cons, hzero]
    · have hinv1 := qinv_step hinv hstep
      unfold finishCount at ih ⊢
      rw [List.filter_cons, if_neg hfin]
      exact ih hinv1

/-- Claim C3: for any sequence of commands enqueued and any number of
consumers concurrently claiming and finishing commands, exactly one
consumer observes each command's terminal transition: in every reachable
state no two consumers hold the same row (`ClaimsInj`), and no row's
terminal transition (a `finish` label with its id) occurs twice in any
run. -/
theorem commandQueue_at_most_once {n : Nat} (s₀ s₁ : QState n)
    (ls : List (QLabel n)) (hinv : QInv s₀) (hsteps : QSteps s₀ ls s₁) :
    ClaimsInj s₁ ∧ ∀ id, finishCount ls id ≤ 1 :=
  ⟨(qinv_steps hinv hsteps).2.1, fun _ => finishCount_le_one hinv hsteps⟩

/-- A requested row for the C3 witness. -/
def qsWitRow : CRow :=
  ⟨"cmd-9", 3, CmdState.requested, "noop", "", none, 100, none, none, none⟩

/-- Initial witness state: one requested row, two idle consumers. -/
def qsWit0 : QState 2 := ⟨[qsWitRow], fun _ => none⟩

/-- Middle witness state: consumer 0 holds the row. -/
def qsWitMid : QState 2 :=
  ⟨[qsWitRow], Function.update qsWit0.claims 0 (some "cmd-9")⟩

/-- Final witness state: the row is finished and released. -/
def qsWitFinal : QState 2 :=
  ⟨writeResult [qsWitRow] "cmd-9" CmdState.success (some "ok") 10 20,
   Function.update qsWitMid.claims 0 none⟩

/-- The witness run: consumer 0 claims and then finishes the row. -/
def qsWitLabels : List (QLabel 2) :=
  [QLabel.claim 0 "cmd-9", QLabel.finish 0 "cmd-9" CmdState.success (some "ok")]

theorem qsWit0_inv : QInv qsWit0 :=
  ⟨by decide, fun _ _ _ => Or.inl rfl, fun _ _ h => nomatch h⟩

theorem qsWit_step1 : QStep qsWit0 (QLabel.claim 0 "cmd-9") qsWitMid :=
  QStep.claim qsWit0 0 qsWitRow rfl (by decide) rfl
    (fun c' => by simp [qsWit0]) (by decide)

theorem qsWit_step2 :
    QStep qsWitMid (QLabel.finish 0 "cmd-9" CmdState.success (some "ok")) qsWitFinal :=
  QStep.finish qsWitMid 0 "cmd-9" CmdState.success (some "ok") 10 20
    (by simp [qsWitMid, qsWit0]) (by decide)

theorem qsWit_trace : QSteps qsWit0 qsWitLabels qsWitFinal :=
  QSteps.step qsWit_step1 (QSteps.step qsWit_step2 (QSteps.refl _))

/-- Witness for claim C3: a concrete two-consumer run that claims and
finishes the single row once. -/
theorem commandQueue_at_most_once_witness :
    QInv qsWit0 ∧ (ClaimsInj qsWitFinal ∧ ∀ id, finishCount qsWitLabels id ≤ 1) :=
  ⟨qsWit0_inv,
   commandQueue_at_most_once qsWit0 qsWitFinal qsWitLabels qsWit0_inv qsWit_trace⟩

/-! ## Backend event handlers (`cmd/b3scalenoded/handler.go`)

Each `Dispatch` call opens one transaction, runs one handler and commits;
on an error the deferred rollback leaves the store unchanged.  A
transaction working on a fixed snapshot is modelled by passing the meeting
table as a value.  A Go nil-pointer dereference is modelled as an
explicit `GoPanic` error (the transaction is rolled back and the process
dies). -/

/-- A runtime panic of the Go process. -/
inductive GoPanic
  | nilPointerDereference
deriving DecidableEq

instance {ε : Type u} {α : Type v} [DecidableEq ε] [DecidableEq α] :
    DecidableEq (Except ε α) := fun a b =>
  match a, b with
  | Except.ok x, Except.ok y =>
    if h : x = y then isTrue (by rw [h])
    else isFalse (fun hh => h (Except.ok.inj hh))
  | Except.error x, Except.error y =>
    if h : x = y then isTrue (by rw [h])
    else isFalse (fun hh => h (Except.error.inj hh))
  | Except.ok _, Except.error _ => isFalse (fun hh => Except.noConfusion hh)
  | Except.error _, Except.ok _ => isFalse (fun hh => Except.noConfusion hh)

/-- A row of the `meetings` table as the handlers see it. -/
structure MState where
  id : String
  internalID : String
  meeting : Meeting
deriving DecidableEq

/-- The meeting table. -/
abbrev MDB : Type := List MState

/-- The five backend events of `bbb` dispatched by the handler. -/
inductive BBBEvent
  | meetingCreated (internalMeetingID meetingID : String)
  | meetingEnded (internalMeetingID : String)
  | meetingDestroyed (internalMeetingID : String)
  | userJoinedMeeting (internalMeetingID : String) (attendee : Attendee)
  | userLeftMeeting (internalMeetingID : String) (internalUserID : String)
deriving DecidableEq

/-- `store.GetMeetingState` with `meetings.internal_id = ?`. -/
def getMeetingStateByInternalID (db : MDB) (iid : String) : Option MState :=
  db.find? (fun r => r.internalID == iid)

/-- `MeetingState.Save` inside the handler transaction: replace the row
that was fetched by its internal id. -/
def saveMeetingState (db : MDB) (m : MState) : MDB :=
  db.map (fun r => if r.internalID = m.internalID then m else r)

/-- Modelled from the spec: `awaitInternalMeeting` is not part of the
provided sources.  “If the meeting is not yet known (race with `create`
forwarding) the handler waits up to 5 s polling with exponential backoff”
and then gives up with no row and no error.  Against a fixed table
snapshot every poll sees the same answer, so the wait collapses to one
lookup whose `none` outcome stands for the expired 5 s deadline. -/
def awaitInternalMeeting (db : MDB) (iid : String) : Option MState :=
  getMeetingStateByInternalID db iid

/-- `EventHandler.onMeetingCreated`: await the row, drop the event with a
warning when it never appears, else set `Running` and save. -/
def onMeetingCreated (db : MDB) (iid : String) : Except GoPanic MDB :=
  match awaitInternalMeeting db iid with
  | none => Except.ok db
  | some m =>
    Except.ok (saveMeetingState db
      { m with meeting := { m.meeting with Running := true } })

/-- `EventHandler.onMeetingEnded`: await the row; when it is unknown the
warning is logged but the early return is missing, so the following
`mstate.Meeting.Running = false` dereferences the nil meeting state — a
panic.  Otherwise reset `Running` and the attendee list and save. -/
def onMeetingEnded (db : MDB) (iid : String) : Except GoPanic MDB :=
  match awaitInternalMeeting db iid with
  | none => Except.error GoPanic.nilPointerDereference
  | some m =>
    Except.ok (saveMeetingState db
      { m with meeting := { m.meeting with Running := false, Attendees := [] } })

/-- `EventHandler.onMeetingDestroyed`: delete the row by internal id (a
missing row deletes nothing; a deletion error is swallowed). -/
def onMeetingDestroyed (db : MDB) (iid : String) : Except GoPanic MDB :=
  Except.ok (db.filter (fun r => r.internalID ≠ iid))

/-- `EventHandler.onUserJoinedMeeting`: a single lookup (no waiting); an
unknown meeting is dropped with a warning; otherwise the attendee is
appended unconditionally and the state saved. -/
def onUserJoinedMeeting (db : MDB) (iid : String) (a : Attendee) :
    Except GoPanic MDB :=
  match getMeetingStateByInternalID db iid with
  | none => Except.ok db
  | some m =>
    Except.ok (saveMeetingState db
      { m with meeting :=
          { m.meeting with Attendees := m.meeting.Attendees ++ [a] } })

/-- `EventHandler.onUserLeftMeeting`: a single lookup; an unknown meeting
is dropped with a warning; otherwise every attendee with the event's
internal user id is removed and the state saved. -/
def onUserLeftMeeting (db : MDB) (iid uid : String) : Except GoPanic MDB :=
  match getMeetingStateByInternalID db iid with
  | none => Except.ok db
  | some m =>
    Except.ok (saveMeetingState db
      { m with meeting :=
          { m.meeting with Attendees :=
              m.meeting.Attendees.filter (fun a => a.InternalUserID ≠ uid) } })

/-- `EventHandler.Dispatch`: route the event to its handler within one
transaction. -/
def Dispatch (db : MDB) : BBBEvent → Except GoPanic MDB
  | BBBEvent.meetingCreated iid _ => onMeetingCreated db iid
  | BBBEvent.meetingEnded iid => onMeetingEnded db iid
  | BBBEvent.meetingDestroyed iid => onMeetingDestroyed db iid
  | BBBEvent.userJoinedMeeting iid a => onUserJoinedMeeting db iid a
  | BBBEvent.userLeftMeeting iid uid => onUserLeftMeeting db iid uid

/-- Sequential handler invocations; a panic aborts the run. -/
def processEvents (db : MDB) : List BBBEvent → Except GoPanic MDB
  | [] => Except.ok db
  | e :: rest =>
    match Dispatch db e with
    | Except.error p => Except.error p
    | Except.ok db' => processEvents db' rest

/-- A meeting record with every field zeroed, to build concrete states. -/
def emptyMeeting : Meeting :=
  ⟨"", "", "", 0, "", "", "", "", "", false, 0, false, false, 0, 0,
   0, 0, 0, 0, 0, 0, false, [], [], [], none⟩

/-! ### Claim C4 -/

/-- A concrete attendee, used by the C4 and C6 scenarios. -/
def attW : Attendee :=
  ⟨"u1", "int-u1", "Alice", "VIEWER", false, false, false, false, "HTML5"⟩

/-- Claim C4, evaluated at the failing input: with a meeting id unknown to
the cluster (empty table), four of the five handlers drop the event and
return without error and without modifying state — but `MeetingEnded`
panics on the nil meeting state instead, because the early return after
the warning is missing. -/
theorem dispatch_unknown_meeting_behavior :
    Dispatch [] (BBBEvent.meetingCreated "int-x" "m-x") = Except.ok []
    ∧ Dispatch [] (BBBEvent.userJoinedMeeting "int-x" attW) = Except.ok []
    ∧ Dispatch [] (BBBEvent.userLeftMeeting "int-x" "int-u1") = Except.ok []
    ∧ Dispatch [] (BBBEvent.meetingDestroyed "int-x") = Except.ok []
    ∧ Dispatch [] (BBBEvent.meetingEnded "int-x")
      = Except.error GoPanic.nilPointerDereference := by
  decide

/-! ### Claim C6 -/

/-- Is the head event either not a join, or a join of an attendee whose
internal user id is absent from the stored list? -/
def freshJoinHead (db : MDB) : BBBEvent → Bool
  | BBBEvent.userJoinedMeeting iid a =>
    (match getMeetingStateByInternalID db iid with
     | none => true
     | some m => m.meeting.Attendees.all (fun b => b.InternalUserID != a.InternalUserID))
  | _ => true

/-- Does every `UserJoinedMeeting` event of the run deliver an attendee
whose internal user id is absent from the stored list at that moment? -/
def freshJoins (db : MDB) : List BBBEvent → Bool
  | [] => true
  | e :: rest =>
    freshJoinHead db e &&
      match Dispatch db e with
      | Except.ok db' => freshJoins db' rest
      | Except.error _ => true

/-- Every stored attendee list is duplicate-free by internal user id. -/
def attendeesNodup (db : MDB) : Prop :=
  ∀ m ∈ db, (m.meeting.Attendees.map (fun a => a.InternalUserID)).Nodup

instance (db : MDB) : Decidable (attendeesNodup db) := by
  unfold attendeesNodup
  infer_instance

/-- Rows of a saved table: the saved row or an untouched old row. -/
theorem mem_saveMeetingState {db : MDB} {m r : MState}
    (h : r ∈ saveMeetingState db m) : r = m ∨ r ∈ db := by
  obtain ⟨r₀, hr₀, heq⟩ := List.mem_map.mp h
  by_cases hid : r₀.internalID = m.internalID
  · rw [if_pos hid] at heq
    exact Or.inl heq.symm
  · rw [if_neg hid] at heq
    exact Or.inr (heq ▸ hr₀)

theorem attendeesNodup_save {db : MDB} {m : MState}
    (hinv : attendeesNodup db)
    (hm : (m.meeting.Attendees.map (fun a => a.InternalUserID)).Nodup) :
    attendeesNodup (saveMeetingState db m) := by
  intro r hr
  rcases mem_saveMeetingState hr with h | h
  · exact h ▸ hm
  · exact hinv r h

/-- One handler invocation preserves duplicate-freedom, provided a join
delivers a user not currently in the fetched list. -/
theorem attendeesNodup_dispatch {db db' : MDB} {e : BBBEvent}
    (hinv : attendeesNodup db)
    (hfresh : freshJoinHead db e = true)
    (hrun : Dispatch db e = Except.ok db') :
    attendeesNodup db' := by
  cases e with
  | meetingCreated iid mid =>
    simp only [Dispatch] at hrun
    unfold onMeetingCreated at hrun
    cases hfind : awaitInternalMeeting db iid with
    | none =>
      rw [hfind] at hrun
      cases hrun
      exact hinv
    | some m =>
      rw [hfind] at hrun
      dsimp only at hrun
      cases hrun
      refine attendeesNodup_save hinv ?_
      exact hinv m (List.mem_of_find?_eq_some hfind)
  | meetingEnded iid =>
    simp only [Dispatch] at hrun
    unfold onMeetingEnded at hrun
    cases hfind : awaitInternalMeeting db iid with
    | none =>
      rw [hfind] at hrun
      cases hrun
    | some m =>
      rw [hfind] at hrun
      dsimp only at hrun
      cases hrun
      refine attendeesNodup_save hinv ?_
      simp
  | meetingDestroyed iid =>
    simp only [Dispatch] at hrun
    unfold onMeetingDestroyed at hrun
    cases hrun
    intro r hr
    exact hinv r (List.mem_of_mem_filter hr)
  | userJoinedMeeting iid a =>
    simp only [Dispatch] at hrun
    unfold onUserJoinedMeeting at hrun
    cases hfind : getMeetingStateByInternalID db iid with
    | none =>
      rw [hfind] at hrun
      cases hrun
      exact hinv
    | some m =>
      rw [hfind] at hrun
      dsimp only at hrun
      cases hrun
      refine attendeesNodup_save hinv ?_
      have hmnd := hinv m (List.mem_of_find?_eq_some hfind)
      have hnew : a.InternalUserID ∉ m.meeting.Attendees.map (fun b => b.InternalUserID) := by
        simp only [freshJoinHead] at hfresh
        rw [hfind] at hfresh
        intro hmem
        obtain ⟨b, hb, hbeq⟩ := List.mem_map.mp hmem
        have := (List.all_eq_true.mp hfresh) b hb
        rw [hbeq] at this
        simp at this
      simp only [List.map_append, List.map_cons, List.map_nil]
      rw [List.nodup_append]
      exact ⟨hmnd, List.nodup_singleton _,
        by
          intro x hx hx1
          rcases List.mem_singleton.mp hx1 with rfl
          exact hnew hx⟩
  | userLeftMeeting iid uid =>
    simp only [Dispatch] at hrun
    unfold onUserLeftMeeting at hrun
    cases hfind : getMeetingStateByInternalID db iid with
    | none =>
      rw [hfind] at hrun
      cases hrun
      exact hinv
    | some m =>
      rw [hfind] at hrun
      dsimp only at hrun
      cases hrun
      refine attendeesNodup_save hinv ?_
      have hmnd := hinv m (List.mem_of_find?_eq_some hfind)
      exact hmnd.sublist ((List.filter_sublist _).map _)

/-- Claim C6, counterexample: the same attendee delivered twice by
`UserJoinedMeeting` is appended twice — the stored list then contains a
duplicate internal user id. -/
theorem user_join_duplicates_counterexample :
    processEvents
      [⟨"m-1", "int-1", { emptyMeeting with
          MeetingID := "m-1", InternalMeetingID := "int-1" }⟩]
      [BBBEvent.userJoinedMeeting "int-1" attW,
       BBBEvent.userJoinedMeeting "int-1" attW]
      = Except.ok
        [⟨"m-1", "int-1", { emptyMeeting with
            MeetingID := "m-1", InternalMeetingID := "int-1",
            Attendees := [attW, attW] }⟩]
    ∧ ¬ attendeesNodup
        [⟨"m-1", "int-1", { emptyMeeting with
            MeetingID := "m-1", InternalMeetingID := "int-1",
            Attendees := [attW, attW] }⟩] := by
  constructor
  · decide
  · decide

/-- Claim C6 (amended): after any sequence of backend event handler
invocations for a given internal meeting id in which every
`UserJoinedMeeting` delivers an attendee whose internal user id is not
already stored at that point, the attendee lists contain no duplicates by
internal user id.  (A repeated at-least-once delivery of the same join is
appended again — see the counterexample.) -/
theorem attendees_nodup_of_fresh_joins (db : MDB) (events : List BBBEvent)
    (db' : MDB) (hinv : attendeesNodup db)
    (hfresh : freshJoins db events = true)
    (hrun : processEvents db events = Except.ok db') :
    attendeesNodup db' := by
  induction events generalizing db with
  | nil =>
    cases hrun
    exact hinv
  | cons e rest ih =>
    unfold processEvents at hrun
    cases hdis : Dispatch db e with
    | error p =>
      rw [hdis] at hrun
      cases hrun
    | ok db₁ =>
      rw [hdis] at hrun
      dsimp only at hrun
      unfold freshJoins at hfresh
      rw [hdis] at hfresh
      simp only [Bool.and_eq_true] at hfresh
      obtain ⟨hfresh1, hfresh2⟩ := hfresh
      exact ih db₁ (attendeesNodup_dispatch hinv hfresh1 hdis) hfresh2 hrun

/-- A second concrete attendee for the C6 witness. -/
def attW2 : Attendee :=
  ⟨"u2", "int-u2", "Bob", "MODERATOR", false, false, false, false, "HTML5"⟩

/-- The C6 witness events: join u1, join u2, u1 leaves, u1 joins again. -/
def c6Events : List BBBEvent :=
  [BBBEvent.userJoinedMeeting "int-1" attW,
   BBBEvent.userJoinedMeeting "int-1" attW2,
   BBBEvent.userLeftMeeting "int-1" "int-u1",
   BBBEvent.userJoinedMeeting "int-1" attW]

/-- Witness for the amended claim C6, on the concrete four-event run. -/
theorem attendees_nodup_of_fresh_joins_witness :
    (attendeesNodup
        [⟨"m-1", "int-1", { emptyMeeting with
            MeetingID := "m-1", InternalMeetingID := "int-1" }⟩]
      ∧ freshJoins
          [⟨"m-1", "int-1", { emptyMeeting with
              MeetingID := "m-1", InternalMeetingID := "int-1" }⟩] c6Events = true
      ∧ processEvents
          [⟨"m-1", "int-1", { emptyMeeting with
              MeetingID := "m-1", InternalMeetingID := "int-1" }⟩] c6Events
        = Except.ok
          [⟨"m-1", "int-1", { emptyMeeting with
              MeetingID := "m-1", InternalMeetingID := "int-1",
              Attendees := [attW2, attW] }⟩])
    ∧ attendeesNodup
        [⟨"m-1", "int-1", { emptyMeeting with
            MeetingID := "m-1", InternalMeetingID := "int-1",
            Attendees := [attW2, attW] }⟩] :=
  ⟨⟨by decide, by decide, by decide⟩,
   attendees_nodup_of_fresh_joins
     [⟨"m-1", "int-1", { emptyMeeting with
         MeetingID := "m-1", InternalMeetingID := "int-1" }⟩]
     c6Events
     [⟨"m-1", "int-1", { emptyMeeting with
         MeetingID := "m-1", InternalMeetingID := "int-1",
         Attendees := [attW2, attW] }⟩]
     (by decide) (by decide) (by decide)⟩

/-! ## Meeting-list sync (`pkg/store/meeting_state.go`, `BackendState`)

`SetMeetings` opens a transaction on `s.conn` and commits it at the end —
but every statement in between (`ClearMeetings`, each `MeetingState.Save`,
the final `BackendState.Save`) runs on `s.conn`, the shared pool, not on
`tx`.  The embedding therefore applies those writes to the store
immediately; the transaction itself carries no work, and only the commit
outcome decides the returned error. -/

/-- A row of the `meetings` table as the sync path sees it. -/
structure MeetingRow where
  id : String
  backendID : Option String
  meeting : Meeting
  syncedAt : Option Nat
deriving DecidableEq

/-- The `backends` row fields written by `SetMeetings`. -/
structure BackendRow where
  id : String
  nodeState : String
  syncedAt : Option Nat
  updatedAt : Option Nat
deriving DecidableEq

/-- The part of the store that `SetMeetings` touches. -/
structure StoreDB where
  meetings : List MeetingRow
  backends : List BackendRow
deriving DecidableEq

/-- `BackendState.ClearMeetings`:
`DELETE FROM meetings WHERE backend_id = $1`, executed on `s.conn`. -/
def ClearMeetings (db : StoreDB) (backendID : String) : StoreDB :=
  { db with meetings := db.meetings.filter (fun r => r.backendID ≠ some backendID) }

/-- Modelled from the spec: `MeetingState.Save` is incomplete in the source
(`insert` is truncated, `update` returns “implement me”); per the spec the
save upserts the row keyed by the meeting id with the backend id.  After
`ClearMeetings` the rows are fresh inserts.  It runs on the pool, and
`SetMeetings` discards its error. -/
def saveNewMeetingRow (db : StoreDB) (backendID : String) (m : Meeting) : StoreDB :=
  { db with meetings := db.meetings ++ [⟨m.MeetingID, some backendID, m, none⟩] }

/-- `BackendState.Save` at the end of `SetMeetings`: update the backend
row with `node_state = ready` and fresh sync/update stamps (on the pool;
error discarded). -/
def saveBackendRow (db : StoreDB) (backendID : String) (now : Nat) : StoreDB :=
  { db with backends := db.backends.map (fun b =>
      if b.id = backendID then
        { b with nodeState := "ready", syncedAt := some now, updatedAt := some now }
      else b) }

/-- `BackendState.SetMeetings`: begin a transaction, clear and re-insert
the backend's meetings and stamp the backend row — all on the pool — then
commit the (empty) transaction; `commitOk` is the commit outcome. -/
def SetMeetings (db : StoreDB) (backendID : String) (meetings : List Meeting)
    (now : Nat) (commitOk : Bool) : Except Unit Unit × StoreDB :=
  let db1 := ClearMeetings db backendID
  let db2 := meetings.foldl (fun d m => saveNewMeetingRow d backendID m) db1
  let db3 := saveBackendRow db2 backendID now
  if commitOk then (Except.ok (), db3) else (Except.error (), db3)

/-! ### Claim C5 -/

/-- Claim C5, evaluated at the failing input: a backend with one stored
meeting runs `SetMeetings []` and the final `COMMIT` fails.  The call
returns an error, yet the backend's meeting row is already gone and the
backend row already stamped: the deletes and upserts were executed on the
pool connection outside the transaction, so they take effect despite the
error. -/
theorem setMeetings_not_transactional :
    (SetMeetings
        ⟨[⟨"m-1", some "b-1", { emptyMeeting with MeetingID := "m-1" }, none⟩],
         [⟨"b-1", "init", none, none⟩]⟩
        "b-1" [] 7 false).1 = Except.error ()
    ∧ (SetMeetings
        ⟨[⟨"m-1", some "b-1", { emptyMeeting with MeetingID := "m-1" }, none⟩],
         [⟨"b-1", "init", none, none⟩]⟩
        "b-1" [] 7 false).2
      = ⟨[], [⟨"b-1", "ready", some 7, some 7⟩]⟩
    ∧ ([⟨"m-1", some "b-1", { emptyMeeting with MeetingID := "m-1" }, none⟩]
        : List MeetingRow) ≠ [] := by
  refine ⟨rfl, rfl, ?_⟩
  decide

/-! ## `Backend.Create` (`pkg/cluster`) -/

/-- The common XML response header. -/
structure XMLResponse where
  returncode : String
  messageKey : String
  message : String
deriving DecidableEq

/-- `bbb.IsMeetingRunningResponse`. -/
structure IsMeetingRunningResponse where
  xml : XMLResponse
  running : Bool
deriving DecidableEq

/-- `bbb.CreateResponse`, with its HTTP status. -/
structure CreateResponse where
  xml : XMLResponse
  meeting : Option Meeting
  status : Nat
deriving DecidableEq

/-- The outbound HTTP calls `Backend.Create` can make. -/
inductive UpstreamCall
  | isMeetingRunning (meetingID : String)
  | create (params : Params)
deriving DecidableEq

/-- The BBB client as an oracle for the two requests `Create` issues. -/
structure BBBClient where
  isMeetingRunningDo : String → Except String IsMeetingRunningResponse
  createDo : Params → Except String CreateResponse

/-- `Backend.IsMeetingRunning`: forward the request; when the upstream
returncode is `ERROR`, delete the meeting row by id. -/
def backendIsMeetingRunning (client : BBBClient) (rows : List MeetingRow)
    (mid : String) :
    Except String IsMeetingRunningResponse × List MeetingRow × List UpstreamCall :=
  match client.isMeetingRunningDo mid with
  | Except.error e => (Except.error e, rows, [UpstreamCall.isMeetingRunning mid])
  | Except.ok res =>
    if res.xml.returncode = "ERROR" then
      (Except.ok res, rows.filter (fun r => r.id ≠ mid),
       [UpstreamCall.isMeetingRunning mid])
    else
      (Except.ok res, rows, [UpstreamCall.isMeetingRunning mid])

/-- Modelled from the spec: `BackendState.CreateMeetingState` is not part
of the provided sources; per the spec it inserts the meeting row bound to
this backend. -/
def createMeetingState (rows : List MeetingRow) (backendID : String)
    (m : Option Meeting) : List MeetingRow :=
  match m with
  | none => rows
  | some mm => rows ++ [⟨mm.MeetingID, some backendID, mm, none⟩]

/-- `Backend.Create`: look the meeting up by its id
(`meetingStateFromRequest`); if known, probe `isMeetingRunning` and on
returncode `SUCCESS` answer with a synthetic 200/SUCCESS response carrying
the stored meeting, without forwarding; otherwise forward the create and
insert or update the stored state. -/
def backendCreate (client : BBBClient) (rows : List MeetingRow)
    (backendID : String) (req : Params) (now : Nat) :
    Except String CreateResponse × List MeetingRow × List UpstreamCall :=
  match findVal req "meetingID" with
  | none => (Except.error "meetingID required", rows, [])
  | some mid =>
    match rows.find? (fun r => r.id == mid) with
    | some st =>
      match backendIsMeetingRunning client rows st.id with
      | (Except.error e, rows1, calls1) => (Except.error e, rows1, calls1)
      | (Except.ok res, rows1, calls1) =>
        if res.xml.returncode = "SUCCESS" then
          (Except.ok ⟨⟨"SUCCESS", "", ""⟩, some st.meeting, 200⟩, rows1, calls1)
        else
          match client.createDo req with
          | Except.error e => (Except.error e, rows1, calls1 ++ [UpstreamCall.create req])
          | Except.ok createRes =>
            (Except.ok createRes,
             rows1.map (fun r =>
               if r.id = st.id then
                 { r with meeting := createRes.meeting.getD r.meeting,
                          syncedAt := some now }
               else r),
             calls1 ++ [UpstreamCall.create req])
    | none =>
      match client.createDo req with
      | Except.error e => (Except.error e, rows, [UpstreamCall.create req])
      | Except.ok createRes =>
        (Except.ok createRes, createMeetingState rows backendID createRes.meeting,
         [UpstreamCall.create req])

/-! ### Claim C10 -/

/-- Claim C10: for every create request whose meeting id already has a
stored meeting state and for which the backend's `IsMeetingRunning` check
returns returncode `SUCCESS`, `Backend.Create` returns a synthetic
`SUCCESS` response with HTTP status 200 carrying the stored meeting, does
not forward the create request upstream (the only call made is the
`isMeetingRunning` probe), and leaves the stored state unchanged. -/
theorem backend_create_short_circuit (client : BBBClient)
    (rows : List MeetingRow) (bid : String) (req : Params) (now : Nat)
    (mid : String) (st : MeetingRow) (res : IsMeetingRunningResponse)
    (hmid : findVal req "meetingID" = some mid)
    (hfound : rows.find? (fun r => r.id == mid) = some st)
    (hclient : client.isMeetingRunningDo st.id = Except.ok res)
    (hsucc : res.xml.returncode = "SUCCESS") :
    backendCreate client rows bid req now
      = (Except.ok ⟨⟨"SUCCESS", "", ""⟩, some st.meeting, 200⟩, rows,
         [UpstreamCall.isMeetingRunning st.id]) := by
  have hnoterr : ¬ res.xml.returncode = "ERROR" := by
    rw [hsucc]
    decide
  unfold backendCreate
  rw [hmid]
  dsimp only
  rw [hfound]
  dsimp only
  unfold backendIsMeetingRunning
  rw [hclient]
  dsimp only
  rw [if_neg hnoterr]
  dsimp only
  rw [if_pos hsucc]

/-- A concrete client for the C10 witness: the probe succeeds, the create
endpoint is never reached. -/
def clientW : BBBClient :=
  ⟨fun _ => Except.ok ⟨⟨"SUCCESS", "", ""⟩, true⟩,
   fun _ => Except.error "create must not be called"⟩

/-- The stored row for the C10 witness. -/
def rowW : MeetingRow :=
  ⟨"m-1", some "b-1", { emptyMeeting with MeetingID := "m-1" }, none⟩

/-- Witness for claim C10 at a concrete request and store. -/
theorem backend_create_short_circuit_witness :
    (findVal [("meetingID", "m-1")] "meetingID" = some "m-1"
      ∧ [rowW].find? (fun r => r.id == "m-1") = some rowW
      ∧ clientW.isMeetingRunningDo rowW.id = Except.ok ⟨⟨"SUCCESS", "", ""⟩, true⟩)
    ∧ backendCreate clientW [rowW] "b-1" [("meetingID", "m-1")] 9
      = (Except.ok ⟨⟨"SUCCESS", "", ""⟩, some rowW.meeting, 200⟩, [rowW],
         [UpstreamCall.isMeetingRunning rowW.id]) :=
  ⟨⟨by decide, by decide, rfl⟩,
   backend_create_short_circuit clientW [rowW] "b-1" [("meetingID", "m-1")] 9
     "m-1" rowW ⟨⟨"SUCCESS", "", ""⟩, true⟩ (by decide) (by decide) rfl rfl⟩

end B3
